import Mathlib

/-!
Verification of the ltfs-zip-archiver streaming archive pipeline.

The repository contains two near-duplicate Go program variants:
`main.go` (variant 1) and a second program file (variant 2, the one with the
asynchronous SHA-256 stage and volume-root synthesis).  The definitions below
are shallow embeddings of the relevant Go functions: bytes are `Nat`, byte
slices are `List Nat`, strings/paths are `List Char`, and a sink (an
`io.Writer`) is represented by the ordered list of byte slices it receives.
-/

namespace LtfsZip

/-- Shallow embedding of the `BufferedWriter` struct (identical in both
variants): a fixed-capacity coalescing buffer in front of a sequential sink.
`cap` models `len(bw.buffer)` and `buf` models `bw.buffer[:bw.offset]`. -/
structure BufferedWriter where
  cap : Nat
  buf : List Nat
deriving DecidableEq

/-- `NewBufferedWriter(writer, bufSize)`: empty buffer of capacity `bufSize`. -/
def NewBufferedWriter (bufSize : Nat) : BufferedWriter :=
  { cap := bufSize, buf := [] }

/-- `BufferedWriter.Flush`: when `bw.offset == 0` it is a no-op (the sink
receives nothing); otherwise `bw.buffer[:bw.offset]` goes to the sink as one
write and the offset is reset.  Returns the new state together with the list
of sink writes performed (at most one). -/
def BufferedWriter.Flush (bw : BufferedWriter) : BufferedWriter × List (List Nat) :=
  if bw.buf = [] then (bw, [])
  else ({ cap := bw.cap, buf := [] }, [bw.buf])

/-- The loop of `BufferedWriter.Write`: while bytes remain, flush when the
buffer is full, then copy `min remaining available` bytes into the buffer.
`fuel` bounds the number of iterations.  When `0 < cap` every iteration with a
non-empty remainder copies at least one byte, so `fuel = p.length` iterations
always suffice and the fuel never runs out; with `cap = 0` the Go loop would
never terminate, which the theorems exclude by hypothesis. -/
def BufferedWriter.writeLoop : Nat → BufferedWriter → List Nat → BufferedWriter × List (List Nat)
  | _, bw, [] => (bw, [])
  | 0, bw, _ => (bw, [])
  | fuel + 1, bw, p =>
    let fl := if bw.cap - bw.buf.length = 0 then bw.Flush else (bw, [])
    let available := fl.1.cap - fl.1.buf.length
    let copySize := min p.length available
    let bw2 : BufferedWriter := { cap := fl.1.cap, buf := fl.1.buf ++ p.take copySize }
    let r := BufferedWriter.writeLoop fuel bw2 (p.drop copySize)
    (r.1, fl.2 ++ r.2)

/-- `BufferedWriter.Write(p)`: run the loop on the whole slice.  (On the
error-free sink modelled here the Go function also returns `n = len(p)` and a
nil error.) -/
def BufferedWriter.Write (bw : BufferedWriter) (p : List Nat) : BufferedWriter × List (List Nat) :=
  BufferedWriter.writeLoop p.length bw p

/-- A finite sequence of `Write` calls, collecting all sink writes in order. -/
def writeAll (bw : BufferedWriter) : List (List Nat) → BufferedWriter × List (List Nat)
  | [] => (bw, [])
  | p :: ps =>
    let w := bw.Write p
    let r := writeAll w.1 ps
    (r.1, w.2 ++ r.2)

theorem writeLoop_flatten (fuel : Nat) :
    ∀ (bw : BufferedWriter) (p : List Nat), 0 < bw.cap → p.length ≤ fuel →
      (BufferedWriter.writeLoop fuel bw p).2.flatten ++ (BufferedWriter.writeLoop fuel bw p).1.buf
          = bw.buf ++ p
        ∧ (BufferedWriter.writeLoop fuel bw p).1.cap = bw.cap := by
  induction fuel with
  | zero =>
    intro bw p _ hf
    have hp : p = [] := List.length_eq_zero.mp (Nat.le_zero.mp hf)
    subst hp
    simp [BufferedWriter.writeLoop]
  | succ n ih =>
    intro bw p hc hf
    match p with
    | [] => simp [BufferedWriter.writeLoop]
    | a :: p' =>
      have hlc : (a :: p').length = p'.length + 1 := by simp
      have hf' : p'.length + 1 ≤ n + 1 := by rw [hlc] at hf; exact hf
      by_cases hfull : bw.cap - bw.buf.length = 0
      · -- buffer full: flush first
        have hbuf : ¬ bw.buf = [] := by
          intro h
          rw [h] at hfull
          simp only [List.length_nil, Nat.sub_zero] at hfull
          omega
        have hflush : bw.Flush = ({ cap := bw.cap, buf := [] }, [bw.buf]) := by
          simp [BufferedWriter.Flush, hbuf]
        have hlen : ((a :: p').drop (min (a :: p').length bw.cap)).length ≤ n := by
          rw [List.length_drop, hlc]
          omega
        obtain ⟨h21, h22⟩ := ih { cap := bw.cap, buf := (a :: p').take (min (a :: p').length bw.cap) }
          ((a :: p').drop (min (a :: p').length bw.cap)) hc hlen
        simp only [BufferedWriter.writeLoop, if_pos hfull, hflush, List.length_nil,
          Nat.sub_zero, List.nil_append]
        refine ⟨?_, h22⟩
        rw [List.flatten_append, List.append_assoc, h21]
        simp [List.take_append_drop]
      · -- room available: no flush
        have hav : 0 < bw.cap - bw.buf.length := Nat.pos_of_ne_zero hfull
        have hlen : ((a :: p').drop (min (a :: p').length (bw.cap - bw.buf.length))).length ≤ n := by
          rw [List.length_drop, hlc]
          omega
        obtain ⟨h21, h22⟩ := ih
          { cap := bw.cap,
            buf := bw.buf ++ (a :: p').take (min (a :: p').length (bw.cap - bw.buf.length)) }
          ((a :: p').drop (min (a :: p').length (bw.cap - bw.buf.length))) hc hlen
        simp only [BufferedWriter.writeLoop, if_neg hfull, List.nil_append]
        refine ⟨?_, h22⟩
        rw [h21]
        simp [List.append_assoc, List.take_append_drop]

theorem write_flatten (bw : BufferedWriter) (p : List Nat) (hc : 0 < bw.cap) :
    (bw.Write p).2.flatten ++ (bw.Write p).1.buf = bw.buf ++ p
      ∧ (bw.Write p).1.cap = bw.cap :=
  writeLoop_flatten p.length bw p hc (Nat.le_refl _)

theorem flush_flatten (bw : BufferedWriter) : (bw.Flush).2.flatten = bw.buf := by
  by_cases hb : bw.buf = [] <;> simp [BufferedWriter.Flush, hb]

theorem writeAll_flatten :
    ∀ (ps : List (List Nat)) (bw : BufferedWriter), 0 < bw.cap →
      (writeAll bw ps).2.flatten ++ (writeAll bw ps).1.buf = bw.buf ++ ps.flatten
        ∧ (writeAll bw ps).1.cap = bw.cap := by
  intro ps
  induction ps with
  | nil => intro bw _; simp [writeAll]
  | cons p ps ih =>
    intro bw hc
    obtain ⟨hw1, hw2⟩ := write_flatten bw p hc
    obtain ⟨hr1, hr2⟩ := ih (bw.Write p).1 (by rw [hw2]; exact hc)
    constructor
    · simp only [writeAll, List.flatten_append, List.flatten_cons]
      rw [List.append_assoc, hr1, ← List.append_assoc, hw1, List.append_assoc]
    · simp only [writeAll]
      rw [hr2]
      exact hw2

theorem writeLoop_sizes (fuel : Nat) :
    ∀ (bw : BufferedWriter) (p : List Nat),
      0 < bw.cap → bw.buf.length ≤ bw.cap → p.length ≤ fuel →
      (∀ w ∈ (BufferedWriter.writeLoop fuel bw p).2, w.length = bw.cap)
        ∧ (BufferedWriter.writeLoop fuel bw p).1.buf.length ≤ bw.cap := by
  induction fuel with
  | zero =>
    intro bw p _ hbl hf
    have hp : p = [] := List.length_eq_zero.mp (Nat.le_zero.mp hf)
    subst hp
    simpa [BufferedWriter.writeLoop] using hbl
  | succ n ih =>
    intro bw p hc hbl hf
    match p with
    | [] => simpa [BufferedWriter.writeLoop] using hbl
    | a :: p' =>
      have hlc : (a :: p').length = p'.length + 1 := by simp
      have hf' : p'.length + 1 ≤ n + 1 := by rw [hlc] at hf; exact hf
      by_cases hfull : bw.cap - bw.buf.length = 0
      · have hbuflen : bw.buf.length = bw.cap := by omega
        have hbuf : ¬ bw.buf = [] := by
          intro h
          rw [h] at hbuflen
          simp only [List.length_nil] at hbuflen
          omega
        have hflush : bw.Flush = ({ cap := bw.cap, buf := [] }, [bw.buf]) := by
          simp [BufferedWriter.Flush, hbuf]
        have hlen : ((a :: p').drop (min (a :: p').length bw.cap)).length ≤ n := by
          rw [List.length_drop, hlc]
          omega
        have hbl2 : ((a :: p').take (min (a :: p').length bw.cap)).length ≤ bw.cap := by
          rw [List.length_take]
          omega
        obtain ⟨h21, h22⟩ := ih { cap := bw.cap, buf := (a :: p').take (min (a :: p').length bw.cap) }
          ((a :: p').drop (min (a :: p').length bw.cap)) hc hbl2 hlen
        simp only [BufferedWriter.writeLoop, if_pos hfull, hflush, List.length_nil,
          Nat.sub_zero, List.nil_append]
        refine ⟨?_, h22⟩
        intro w hw
        rcases List.mem_append.mp hw with h | h
        · rw [List.mem_singleton.mp h]
          exact hbuflen
        · exact h21 w h
      · have hav : 0 < bw.cap - bw.buf.length := Nat.pos_of_ne_zero hfull
        have hlen : ((a :: p').drop (min (a :: p').length (bw.cap - bw.buf.length))).length ≤ n := by
          rw [List.length_drop, hlc]
          omega
        have hbl2 : (bw.buf ++ (a :: p').take (min (a :: p').length (bw.cap - bw.buf.length))).length
            ≤ bw.cap := by
          rw [List.length_append, List.length_take]
          omega
        obtain ⟨h21, h22⟩ := ih
          { cap := bw.cap,
            buf := bw.buf ++ (a :: p').take (min (a :: p').length (bw.cap - bw.buf.length)) }
          ((a :: p').drop (min (a :: p').length (bw.cap - bw.buf.length))) hc hbl2 hlen
        simp only [BufferedWriter.writeLoop, if_neg hfull, List.nil_append]
        exact ⟨h21, h22⟩

theorem write_sizes (bw : BufferedWriter) (p : List Nat) (hc : 0 < bw.cap)
    (hbl : bw.buf.length ≤ bw.cap) :
    (∀ w ∈ (bw.Write p).2, w.length = bw.cap) ∧ (bw.Write p).1.buf.length ≤ bw.cap :=
  writeLoop_sizes p.length bw p hc hbl (Nat.le_refl _)

theorem writeAll_sizes :
    ∀ (ps : List (List Nat)) (bw : BufferedWriter), 0 < bw.cap → bw.buf.length ≤ bw.cap →
      (∀ w ∈ (writeAll bw ps).2, w.length = bw.cap)
        ∧ (writeAll bw ps).1.buf.length ≤ bw.cap := by
  intro ps
  induction ps with
  | nil => intro bw _ hbl; simpa [writeAll] using hbl
  | cons p ps ih =>
    intro bw hc hbl
    obtain ⟨hw1, hw2⟩ := write_sizes bw p hc hbl
    have hcap : (bw.Write p).1.cap = bw.cap := (write_flatten bw p hc).2
    obtain ⟨hr1, hr2⟩ := ih (bw.Write p).1 (by rw [hcap]; exact hc) (by rw [hcap]; exact hw2)
    constructor
    · intro w hw
      simp only [writeAll, List.mem_append] at hw
      rcases hw with h | h
      · exact hw1 w h
      · rw [← hcap]
        exact hr1 w h
    · simp only [writeAll]
      rw [← hcap]
      exact hr2

/-- C1: for every finite sequence of `Write` calls through `BufferedWriter`
followed by one final `Flush`, the concatenation of the byte slices the sink
receives equals the concatenation of the input slices, in order, for any
positive buffer capacity (no loss, duplication or reordering, regardless of
chunking). -/
theorem bufferedWriter_roundTrip (cap : Nat) (ps : List (List Nat)) (hc : 0 < cap) :
    ((writeAll (NewBufferedWriter cap) ps).2
        ++ ((writeAll (NewBufferedWriter cap) ps).1.Flush).2).flatten
      = ps.flatten := by
  obtain ⟨h1, _⟩ := writeAll_flatten ps (NewBufferedWriter cap) hc
  rw [List.flatten_append, flush_flatten]
  simpa [NewBufferedWriter] using h1

theorem bufferedWriter_roundTrip_witness :
    0 < 3 ∧
      ((writeAll (NewBufferedWriter 3) [[1, 2], [3, 4, 5], [6]]).2
          ++ ((writeAll (NewBufferedWriter 3) [[1, 2], [3, 4, 5], [6]]).1.Flush).2).flatten
        = [[1, 2], [3, 4, 5], [6]].flatten :=
  ⟨by decide, bufferedWriter_roundTrip 3 [[1, 2], [3, 4, 5], [6]] (by decide)⟩

/-- C4: with a positive capacity `cap`, every sink write produced during the
`Write` phase (i.e. before the final `Flush`) has size exactly `cap`; the
final `Flush` produces at most one sink write, of size at most `cap`; and
`Flush` on an empty buffer is a no-op (no sink write, state unchanged). -/
theorem bufferedWriter_block_sizes (cap : Nat) (ps : List (List Nat)) (hc : 0 < cap) :
    (∀ w ∈ (writeAll (NewBufferedWriter cap) ps).2, w.length = cap)
      ∧ (∀ w ∈ ((writeAll (NewBufferedWriter cap) ps).1.Flush).2, w.length ≤ cap)
      ∧ ((writeAll (NewBufferedWriter cap) ps).1.Flush).2.length ≤ 1
      ∧ ((writeAll (NewBufferedWriter cap) ps).1.buf = [] →
          (writeAll (NewBufferedWriter cap) ps).1.Flush
            = ((writeAll (NewBufferedWriter cap) ps).1, [])) := by
  obtain ⟨h1, h2⟩ := writeAll_sizes ps (NewBufferedWriter cap) hc (by simp [NewBufferedWriter])
  refine ⟨fun w hw => h1 w hw, ?_, ?_, ?_⟩
  · intro w hw
    by_cases hb : (writeAll (NewBufferedWriter cap) ps).1.buf = []
    · simp [BufferedWriter.Flush, hb] at hw
    · simp only [BufferedWriter.Flush, if_neg hb, List.mem_singleton] at hw
      rw [hw]
      exact h2
  · by_cases hb : (writeAll (NewBufferedWriter cap) ps).1.buf = []
    · simp [BufferedWriter.Flush, hb]
    · simp [BufferedWriter.Flush, hb]
  · intro hb
    simp [BufferedWriter.Flush, hb]

theorem bufferedWriter_block_sizes_witness :
    0 < 3 ∧
      ((∀ w ∈ (writeAll (NewBufferedWriter 3) [[1, 2, 3, 4], [5]]).2, w.length = 3)
        ∧ (∀ w ∈ ((writeAll (NewBufferedWriter 3) [[1, 2, 3, 4], [5]]).1.Flush).2, w.length ≤ 3)
        ∧ ((writeAll (NewBufferedWriter 3) [[1, 2, 3, 4], [5]]).1.Flush).2.length ≤ 1
        ∧ ((writeAll (NewBufferedWriter 3) [[1, 2, 3, 4], [5]]).1.buf = [] →
            (writeAll (NewBufferedWriter 3) [[1, 2, 3, 4], [5]]).1.Flush
              = ((writeAll (NewBufferedWriter 3) [[1, 2, 3, 4], [5]]).1, []))) :=
  ⟨by decide, bufferedWriter_block_sizes 3 [[1, 2, 3, 4], [5]] (by decide)⟩

/-!
SHA-256, as used by variant 2 through Go's `crypto/sha256` and
`hex.EncodeToString`.  Words are `Nat` kept below `2^32` by explicit `% M32`.
-/

/-- `2^32`, the word modulus of SHA-256 arithmetic. -/
def M32 : Nat := 4294967296

/-- 32-bit right rotation. -/
def rotr32 (n x : Nat) : Nat := ((x >>> n) ||| (x <<< (32 - n))) % M32

def bigSigma0 (x : Nat) : Nat := (rotr32 2 x) ^^^ (rotr32 13 x) ^^^ (rotr32 22 x)

def bigSigma1 (x : Nat) : Nat := (rotr32 6 x) ^^^ (rotr32 11 x) ^^^ (rotr32 25 x)

def smallSigma0 (x : Nat) : Nat := (rotr32 7 x) ^^^ (rotr32 18 x) ^^^ (x >>> 3)

def smallSigma1 (x : Nat) : Nat := (rotr32 17 x) ^^^ (rotr32 19 x) ^^^ (x >>> 10)

/-- The 64 SHA-256 round constants. -/
def sha256K : List Nat :=
  [1116352408, 1899447441, 3049323471, 3921009573, 961987163,
   1508970993, 2453635748, 2870763221, 3624381080, 310598401,
   607225278, 1426881987, 1925078388, 2162078206, 2614888103,
   3248222580, 3835390401, 4022224774, 264347078, 604807628,
   770255983, 1249150122, 1555081692, 1996064986, 2554220882,
   2821834349, 2952996808, 3210313671, 3336571891, 3584528711,
   113926993, 338241895, 666307205, 773529912, 1294757372,
   1396182291, 1695183700, 1986661051, 2177026350, 2456956037,
   2730485921, 2820302411, 3259730800, 3345764771, 3516065817,
   3600352804, 4094571909, 275423344, 430227734, 506948616,
   659060556, 883997877, 958139571, 1322822218, 1537002063,
   1747873779, 1955562222, 2024104815, 2227730452, 2361852424,
   2428436474, 2756734187, 3204031479, 3329325298]

/-- The SHA-256 initial hash state. -/
def sha256H0 : List Nat :=
  [1779033703, 3144134277, 1013904242, 2773480762,
   1359893119, 2600822924, 528734635, 1541459225]

/-- Big-endian bytes of `v`, `k` bytes wide. -/
def beBytes (k v : Nat) : List Nat :=
  (List.range k).map (fun i => (v >>> (8 * (k - 1 - i))) % 256)

/-- SHA-256 padding: `0x80`, zero bytes up to 56 mod 64, then the 64-bit
big-endian bit length. -/
def sha256Pad (msg : List Nat) : List Nat :=
  msg ++ [0x80] ++ List.replicate ((64 + 56 - (msg.length + 1) % 64) % 64) 0
    ++ beBytes 8 (8 * msg.length)

/-- Group 4 big-endian bytes per 32-bit word. -/
def toWords : List Nat → List Nat
  | b0 :: b1 :: b2 :: b3 :: rest => (((b0 * 256 + b1) * 256 + b2) * 256 + b3) :: toWords rest
  | _ => []

/-- Extend the 16 block words by `n` more schedule words. -/
def extendW : Nat → List Nat → List Nat
  | 0, w => w
  | n + 1, w =>
    extendW n (w ++ [(smallSigma1 (w.getD (w.length - 2) 0) + w.getD (w.length - 7) 0
      + smallSigma0 (w.getD (w.length - 15) 0) + w.getD (w.length - 16) 0) % M32])

/-- One compression round; the state is `[a, b, c, d, e, f, g, h]`. -/
def sha256Round (st : List Nat) (kw : Nat × Nat) : List Nat :=
  match st with
  | [a, b, c, d, e, f, g, h] =>
    let ch := (e &&& f) ^^^ ((e ^^^ (M32 - 1)) &&& g)
    let maj := (a &&& b) ^^^ (a &&& c) ^^^ (b &&& c)
    let t1 := (h + bigSigma1 e + ch + kw.1 + kw.2) % M32
    let t2 := (bigSigma0 a + maj) % M32
    [(t1 + t2) % M32, a, b, c, (d + t1) % M32, e, f, g]
  | other => other

/-- Compress one 64-byte block into the hash state. -/
def sha256Compress (hs : List Nat) (block : List Nat) : List Nat :=
  let w := extendW 48 (toWords block)
  let st := (sha256K.zip w).foldl sha256Round hs
  (hs.zip st).map (fun p => (p.1 + p.2) % M32)

/-- Fold all 64-byte blocks; `fuel` bounds the number of blocks (the padded
message length suffices). -/
def sha256BlocksLoop : Nat → List Nat → List Nat → List Nat
  | _, hs, [] => hs
  | 0, hs, _ => hs
  | fuel + 1, hs, msg => sha256BlocksLoop fuel (sha256Compress hs (msg.take 64)) (msg.drop 64)

/-- The eight 32-bit words of the SHA-256 digest of `msg`. -/
def sha256Words (msg : List Nat) : List Nat :=
  sha256BlocksLoop (sha256Pad msg).length sha256H0 (sha256Pad msg)

def hexDigitChar (n : Nat) : Char :=
  if n < 10 then Char.ofNat (48 + n) else Char.ofNat (87 + n)

def wordHex (v : Nat) : List Char :=
  (List.range 8).map (fun i => hexDigitChar ((v >>> (4 * (7 - i))) % 16))

/-- `hex.EncodeToString` of the SHA-256 digest of `msg`: the lowercase
64-character hex string the program logs and stores in the sidecar file. -/
def sha256Hex (msg : List Nat) : String :=
  String.mk ((sha256Words msg).map wordHex).flatten

/-- Known-answer test: SHA-256 of the empty message. -/
theorem sha256Hex_empty :
    sha256Hex [] = "e3b0c44298fc1c149afbf4c8996fb92427ae41e4649b934ca495991b7852b855" := by
  decide

/-- Known-answer test: SHA-256 of "abc". -/
theorem sha256Hex_abc :
    sha256Hex [0x61, 0x62, 0x63]
      = "ba7816bf8f01cfea414140de5dae2223b00361a396177a9cb410ff61f20015ad" := by
  decide

/-- Shallow embedding of `AsyncSHA256Writer` (variant 2): `sink` is the byte
stream the wrapped writer has received, `hashed` the bytes the hash worker
has already folded into the hasher, `pending` the chunks sitting in the FIFO
channel `dataCh`, `closed` the close flag. -/
structure AsyncSHA256Writer where
  sink : List Nat
  hashed : List Nat
  pending : List (List Nat)
  closed : Bool
deriving DecidableEq

def NewAsyncSHA256Writer : AsyncSHA256Writer :=
  { sink := [], hashed := [], pending := [], closed := false }

/-- One scheduling step of `hashWorker`: receive one chunk from `dataCh`, if
any, and `hasher.Write` it. -/
def AsyncSHA256Writer.workerStep (s : AsyncSHA256Writer) : AsyncSHA256Writer :=
  match s.pending with
  | [] => s
  | c :: rest => { s with hashed := s.hashed ++ c, pending := rest }

/-- `n` scheduling steps of `hashWorker`. -/
def AsyncSHA256Writer.workerSteps (s : AsyncSHA256Writer) : Nat → AsyncSHA256Writer
  | 0 => s
  | n + 1 => (s.workerStep).workerSteps n

/-- `AsyncSHA256Writer.Write(p)`, with the underlying sink's outcome as an
oracle.  `res = none` models a successful `asw.writer.Write(p)` (`n = len p`,
nil error): the sink receives all of `p`, and when the stage is not closed
and `n > 0` a private copy of `p[:n]` is queued on `dataCh`.  `res = some n`
models a failed sink write that transferred `n` bytes before erroring: the Go
code returns the error before reaching the queueing section, so nothing is
queued. -/
def AsyncSHA256Writer.Write (s : AsyncSHA256Writer) (p : List Nat) (res : Option Nat) :
    AsyncSHA256Writer :=
  match res with
  | none =>
    if s.closed = false ∧ p ≠ []
    then { s with sink := s.sink ++ p, pending := s.pending ++ [p] }
    else { s with sink := s.sink ++ p }
  | some n => { s with sink := s.sink ++ p.take n }

/-- A run of the stage: each script item is one `Write` call (chunk, sink
outcome) followed by some number of interleaved hash-worker steps. -/
def runWrites (s : AsyncSHA256Writer) : List (List Nat × Option Nat × Nat) → AsyncSHA256Writer
  | [] => s
  | (p, res, k) :: rest => runWrites ((s.Write p res).workerSteps k) rest

/-- `Sum`: `Close()` (queue the nil sentinel), then block on the result
channel.  Without a timeout the worker drains the queue in FIFO order,
receives the sentinel and replies with the hex digest of everything it
hashed; on the 30-second timeout the stage is torn down and `""` returned. -/
def AsyncSHA256Writer.Sum (s : AsyncSHA256Writer) (timeout : Bool) : String :=
  if timeout then "" else sha256Hex (s.hashed ++ s.pending.flatten)

/-- The concatenated bytes of the `Write` calls whose sink write succeeded. -/
def okBytes : List (List Nat × Option Nat × Nat) → List Nat
  | [] => []
  | (p, none, _) :: rest => p ++ okBytes rest
  | (_, some _, _) :: rest => okBytes rest

/-- The concatenated bytes the sink physically received (failed writes
contribute their partial transfer). -/
def sinkBytes : List (List Nat × Option Nat × Nat) → List Nat
  | [] => []
  | (p, none, _) :: rest => p ++ sinkBytes rest
  | (p, some n, _) :: rest => p.take n ++ sinkBytes rest

theorem workerStep_inv (s : AsyncSHA256Writer) :
    (s.workerStep).hashed ++ (s.workerStep).pending.flatten = s.hashed ++ s.pending.flatten
      ∧ (s.workerStep).sink = s.sink ∧ (s.workerStep).closed = s.closed := by
  cases hp : s.pending with
  | nil => simp [AsyncSHA256Writer.workerStep, hp]
  | cons c rest => simp [AsyncSHA256Writer.workerStep, hp, List.append_assoc]

theorem workerSteps_inv :
    ∀ (n : Nat) (s : AsyncSHA256Writer),
      (s.workerSteps n).hashed ++ (s.workerSteps n).pending.flatten
          = s.hashed ++ s.pending.flatten
        ∧ (s.workerSteps n).sink = s.sink ∧ (s.workerSteps n).closed = s.closed := by
  intro n
  induction n with
  | zero => intro s; simp [AsyncSHA256Writer.workerSteps]
  | succ k ih =>
    intro s
    obtain ⟨h1, h2, h3⟩ := workerStep_inv s
    obtain ⟨g1, g2, g3⟩ := ih s.workerStep
    refine ⟨?_, ?_, ?_⟩ <;> simp only [AsyncSHA256Writer.workerSteps]
    · rw [g1, h1]
    · rw [g2, h2]
    · rw [g3, h3]

theorem write_inv (s : AsyncSHA256Writer) (p : List Nat) (res : Option Nat)
    (hcl : s.closed = false) :
    (s.Write p res).closed = false
      ∧ (s.Write p res).hashed ++ (s.Write p res).pending.flatten
          = s.hashed ++ s.pending.flatten ++ okBytes [(p, res, 0)]
      ∧ (s.Write p res).sink = s.sink ++ sinkBytes [(p, res, 0)] := by
  cases res with
  | none =>
    by_cases hp : p = []
    · subst hp
      simp [AsyncSHA256Writer.Write, okBytes, sinkBytes, hcl]
    · simp [AsyncSHA256Writer.Write, okBytes, sinkBytes, hcl, hp, List.append_assoc]
  | some n =>
    simp [AsyncSHA256Writer.Write, okBytes, sinkBytes, hcl]

theorem runWrites_inv :
    ∀ (script : List (List Nat × Option Nat × Nat)) (s : AsyncSHA256Writer),
      s.closed = false →
      (runWrites s script).closed = false
        ∧ (runWrites s script).hashed ++ (runWrites s script).pending.flatten
            = s.hashed ++ s.pending.flatten ++ okBytes script
        ∧ (runWrites s script).sink = s.sink ++ sinkBytes script := by
  intro script
  induction script with
  | nil => intro s hcl; simp [runWrites, okBytes, sinkBytes, hcl]
  | cons item rest ih =>
    intro s hcl
    obtain ⟨p, res, k⟩ := item
    obtain ⟨w1, w2, w3⟩ := write_inv s p res hcl
    obtain ⟨k1, k2, k3⟩ := workerSteps_inv k (s.Write p res)
    have hcl2 : ((s.Write p res).workerSteps k).closed = false := by rw [k3, w1]
    obtain ⟨r1, r2, r3⟩ := ih ((s.Write p res).workerSteps k) hcl2
    refine ⟨r1, ?_, ?_⟩
    · rw [show runWrites s ((p, res, k) :: rest) = runWrites ((s.Write p res).workerSteps k) rest
        from rfl]
      rw [r2, k1, w2]
      cases res with
      | none => simp [okBytes, List.append_assoc]
      | some n => simp [okBytes]
    · rw [show runWrites s ((p, res, k) :: rest) = runWrites ((s.Write p res).workerSteps k) rest
        from rfl]
      rw [r3, k2, w3]
      cases res with
      | none => simp [sinkBytes, List.append_assoc]
      | some n => simp [sinkBytes, List.append_assoc]

theorem okBytes_eq_sinkBytes :
    ∀ (script : List (List Nat × Option Nat × Nat)),
      (∀ x ∈ script, x.2.1 = none) → okBytes script = sinkBytes script := by
  intro script
  induction script with
  | nil => intro _; rfl
  | cons item rest ih =>
    intro hall
    obtain ⟨p, res, k⟩ := item
    have hres : res = none := hall (p, res, k) (List.mem_cons_self _ _)
    subst hres
    have := ih (fun x hx => hall x (List.mem_cons_of_mem _ hx))
    simp [okBytes, sinkBytes, this]

/-- C2: whenever `Sum` returns a non-empty result (i.e. no timeout occurred),
that result is the hex-encoded SHA-256 digest of the concatenation, in order,
of the byte slices of all `Write` calls whose sink write succeeded — and when
every sink write succeeded this is exactly the byte stream the underlying
sink received.  This holds for every interleaving of the hash worker with the
writer. -/
theorem asyncSha256_digest_matches_sink (script : List (List Nat × Option Nat × Nat))
    (tmo : Bool) (hne : (runWrites NewAsyncSHA256Writer script).Sum tmo ≠ "") :
    (runWrites NewAsyncSHA256Writer script).Sum tmo = sha256Hex (okBytes script)
      ∧ ((∀ x ∈ script, x.2.1 = none) →
          okBytes script = (runWrites NewAsyncSHA256Writer script).sink) := by
  obtain ⟨_, h2, h3⟩ := runWrites_inv script NewAsyncSHA256Writer rfl
  cases tmo with
  | true => exact absurd rfl hne
  | false =>
    constructor
    · show sha256Hex _ = sha256Hex (okBytes script)
      rw [h2]
      rfl
    · intro hall
      rw [h3, okBytes_eq_sinkBytes script hall]
      rfl

theorem asyncSha256_digest_matches_sink_witness :
    ((runWrites NewAsyncSHA256Writer [([1, 2], none, 1), ([3], none, 0)]).Sum false ≠ ""
        ∧ (∀ x ∈ [([1, 2], none, 1), ([3], none, 0)], x.2.1 = (none : Option Nat)))
      ∧ ((runWrites NewAsyncSHA256Writer [([1, 2], none, 1), ([3], none, 0)]).Sum false
            = sha256Hex (okBytes [([1, 2], none, 1), ([3], none, 0)])
          ∧ ((∀ x ∈ [([1, 2], none, 1), ([3], none, 0)], x.2.1 = (none : Option Nat)) →
              okBytes [([1, 2], none, 1), ([3], none, 0)]
                = (runWrites NewAsyncSHA256Writer [([1, 2], none, 1), ([3], none, 0)]).sink)) :=
  ⟨⟨by decide, by decide⟩,
    asyncSha256_digest_matches_sink [([1, 2], none, 1), ([3], none, 0)] false (by decide)⟩

/-!
The tail of variant 2's `main` after the `addFiles` loop succeeded
(second program file, lines 487-518): finalize the container, then retrieve
the digest, then log completion, then handle the digest result.
-/

/-- The externally observable actions of variant 2's `main` after a
successful `addFiles` loop, in program order. -/
inductive RunEvent
  | zipClose
  | flushBuffer
  | computeSum (result : String)
  | logCompletion
  | logSha (digest : String)
  | writeSidecar (digest : String)
  | warnShaUnavailable
deriving DecidableEq

/-- Shallow embedding of variant 2's `main` tail: `zipWriter.Close()` and
`bufferedFile.Flush()` run unconditionally first; `Sum` is only consulted
afterwards; an empty digest yields the "SHA256 timed out or failed" warning
and no sidecar file, a non-empty digest is logged and written to the
sidecar.  `st` is the digest stage's state at that point and `tmo` whether
its 30-second wait times out. -/
def mainFinish (noSha256 : Bool) (st : AsyncSHA256Writer) (tmo : Bool) : List RunEvent :=
  [RunEvent.zipClose, RunEvent.flushBuffer]
    ++ (if noSha256 then [] else [RunEvent.computeSum (st.Sum tmo)])
    ++ [RunEvent.logCompletion]
    ++ (if noSha256 then []
        else if st.Sum tmo ≠ ""
        then [RunEvent.logSha (st.Sum tmo), RunEvent.writeSidecar (st.Sum tmo)]
        else [RunEvent.warnShaUnavailable])

/-- C6: on a digest timeout, `Sum` returns the empty digest, the caller logs
the digest-unavailable warning, the run still completes (the completion log
happens), no sidecar is written, and the container was already finalized
(`zipWriter.Close` and the final buffer flush happen before `Sum` is even
consulted), so the timeout cannot affect it. -/
theorem digest_timeout_nonfatal (st : AsyncSHA256Writer) :
    st.Sum true = ""
      ∧ mainFinish false st true
          = [RunEvent.zipClose, RunEvent.flushBuffer, RunEvent.computeSum "",
             RunEvent.logCompletion, RunEvent.warnShaUnavailable]
      ∧ RunEvent.logCompletion ∈ mainFinish false st true
      ∧ (∀ d, RunEvent.writeSidecar d ∉ mainFinish false st true) := by
  have hsum : st.Sum true = "" := rfl
  refine ⟨hsum, ?_, ?_, ?_⟩
  · simp [mainFinish, hsum]
  · simp [mainFinish, hsum]
  · intro d
    simp [mainFinish, hsum]

/-!
The pause gate and the producer copy loop.  `PauseController.WaitIfPaused`
is called at the top of every iteration of the per-chunk copy loop in
`addFiles` (both variants), immediately before `file.Read(copyBuffer)`, so a
chunk is only ever read — and then written through the coalescing buffer —
from an unpaused state.  The producer and the toggling input listener are
modelled as a small-step transition system.
-/

/-- State of the producer task: the pause flag (`PauseController.paused`),
the chunks not yet read from the sources, the coalescing buffer, and the
writes the device sink has received. -/
structure ProducerState where
  paused : Bool
  pending : List (List Nat)
  bw : BufferedWriter
  sink : List (List Nat)
deriving DecidableEq

/-- Small-step semantics of the copy loop under the pause gate:
`toggle` is the input listener flipping `PauseController` (a broadcast wakes
waiters on resume); `waitIfPaused` is a producer blocked in
`PauseController.WaitIfPaused` re-checking the flag (a stutter step);
`readChunk` is one iteration of the copy loop — it is only enabled when the
flag is clear, because `WaitIfPaused` runs before every `file.Read`, and it
writes the chunk through `BufferedWriter.Write` to the device sink. -/
inductive ProducerStep : ProducerState → ProducerState → Prop
  | toggle (s : ProducerState) :
      ProducerStep s { s with paused := ! s.paused }
  | waitIfPaused (s : ProducerState) (h : s.paused = true) :
      ProducerStep s s
  | readChunk (s : ProducerState) (c : List Nat) (rest : List (List Nat))
      (hp : s.paused = false) (hc : s.pending = c :: rest) :
      ProducerStep s
        { paused := false, pending := rest,
          bw := (s.bw.Write c).1, sink := s.sink ++ (s.bw.Write c).2 }

/-- C5: while the pause flag is set, no step reads a chunk from a source or
writes to the device, and the coalescing buffer's contents are retained
unflushed (pausing never triggers a flush); moreover any step that consumes
input — the gate is checked before each chunk read — starts from an unpaused
state, so pause latency is bounded by one chunk. -/
theorem pause_invariant (s s' : ProducerState) (hstep : ProducerStep s s') :
    (s.paused = true →
      s'.pending = s.pending ∧ s'.sink = s.sink ∧ s'.bw = s.bw)
      ∧ (s'.pending ≠ s.pending → s.paused = false) := by
  cases hstep with
  | toggle => exact ⟨fun _ => ⟨rfl, rfl, rfl⟩, fun h => absurd rfl h⟩
  | waitIfPaused h => exact ⟨fun _ => ⟨rfl, rfl, rfl⟩, fun h => absurd rfl h⟩
  | readChunk c rest hp hc =>
    refine ⟨fun hpaused => ?_, fun _ => hp⟩
    rw [hp] at hpaused
    exact absurd hpaused (by decide)

theorem pause_invariant_witness :
    (({ paused := true, pending := [[7]], bw := { cap := 4, buf := [9] }, sink := [[0]] }
          : ProducerState).paused = true →
        ([[7]] : List (List Nat)) = [[7]]
          ∧ ([[0]] : List (List Nat)) = [[0]]
          ∧ ({ cap := 4, buf := [9] } : BufferedWriter) = { cap := 4, buf := [9] })
      ∧ (([[7]] : List (List Nat)) ≠ [[7]] →
          ({ paused := true, pending := [[7]], bw := { cap := 4, buf := [9] }, sink := [[0]] }
            : ProducerState).paused = false) :=
  pause_invariant
    { paused := true, pending := [[7]], bw := { cap := 4, buf := [9] }, sink := [[0]] }
    { paused := true, pending := [[7]], bw := { cap := 4, buf := [9] }, sink := [[0]] }
    (ProducerStep.waitIfPaused _ rfl)

/-!
Paths and the destination-inside-source configuration check.  Paths are
`List Char` with one uniform separator character; `chars` converts a string
literal.
-/

/-- The path separator (`os.PathSeparator`); the model uses one uniform
separator character. -/
def pathSep : Char := '/'

def chars (s : String) : List Char := s.toList

/-- Go `strings.HasPrefix s pre`. -/
def strHasPre (s pre : List Char) : Bool := pre.isPrefixOf s

/-- Go `strings.HasSuffix s string(os.PathSeparator)`. -/
def endsWithSep (s : List Char) : Bool :=
  match s.getLast? with
  | some c => c == pathSep
  | none => false

/-- One configured source: its absolute path (`filepath.Abs source`) and
whether `os.Stat` reports a directory. -/
structure SourceCfg where
  absPath : List Char
  isDir : Bool
deriving DecidableEq

/-- Variant 1 (`main.go` lines 213-221): fatal iff some source's absolute
path is a string prefix of the destination's absolute path. -/
def destCheckV1 (absDest : List Char) (sources : List (List Char)) : Bool :=
  sources.any (fun s => strHasPre absDest s)

/-- Variant 2 (second program file, lines 314-331): for a source that stats
as a directory a trailing separator is appended first, unless one is already
present; non-directory (or unstattable) sources are used as-is. -/
def sepAppended (s : SourceCfg) : List Char :=
  if s.isDir = true ∧ endsWithSep s.absPath = false then s.absPath ++ [pathSep] else s.absPath

def destCheckV2 (absDest : List Char) (sources : List SourceCfg) : Bool :=
  sources.any (fun s => strHasPre absDest (sepAppended s))

/-- Modelled from the spec: the destination path lies inside a configured
source — for clean, separator-normalised paths, it extends the source by the
separator plus a non-empty remainder. -/
def destInside (absDest src : List Char) : Bool :=
  strHasPre absDest (src ++ [pathSep]) && decide (src.length + 1 < absDest.length)

/-- The observable configuration-phase actions of `main`, in program order:
the destination-inside-source check runs before the scan phase and before
`os.Create(destFile)`; a violation is fatal and nothing after it runs. -/
inductive CfgEvent
  | fatalDestInSource
  | scanPhase
  | createDest
deriving DecidableEq

def mainConfigV1 (absDest : List Char) (sources : List (List Char)) : List CfgEvent :=
  if destCheckV1 absDest sources then [CfgEvent.fatalDestInSource]
  else [CfgEvent.scanPhase, CfgEvent.createDest]

def mainConfigV2 (absDest : List Char) (sources : List SourceCfg) : List CfgEvent :=
  if destCheckV2 absDest sources then [CfgEvent.fatalDestInSource]
  else [CfgEvent.scanPhase, CfgEvent.createDest]

theorem isPre_of_append_isPre (a b c : List Char)
    (h : (a ++ b).isPrefixOf c = true) : a.isPrefixOf c = true := by
  induction a generalizing c with
  | nil => simp
  | cons x xs ih =>
    cases c with
    | nil => simp [List.isPrefixOf] at h
    | cons y ys =>
      simp only [List.cons_append, List.isPrefixOf, Bool.and_eq_true, beq_iff_eq] at h ⊢
      exact ⟨h.1, ih ys h.2⟩

/-- C7: whenever the destination lies inside some configured source, both
variants take the fatal configuration-error branch, and in particular the
destination file is never created (and hence never written). -/
theorem dest_inside_source_fatal (absDest : List Char) (sources : List SourceCfg)
    (hin : ∃ s ∈ sources, destInside absDest s.absPath = true) :
    mainConfigV1 absDest (sources.map (fun s => s.absPath)) = [CfgEvent.fatalDestInSource]
      ∧ mainConfigV2 absDest sources = [CfgEvent.fatalDestInSource]
      ∧ CfgEvent.createDest ∉ mainConfigV1 absDest (sources.map (fun s => s.absPath))
      ∧ CfgEvent.createDest ∉ mainConfigV2 absDest sources := by
  obtain ⟨s, hs, hd⟩ := hin
  have hsep : (s.absPath ++ [pathSep]).isPrefixOf absDest = true := by
    simp only [destInside, strHasPre, Bool.and_eq_true] at hd
    exact hd.1
  have hplain : strHasPre absDest s.absPath = true :=
    isPre_of_append_isPre s.absPath [pathSep] absDest hsep
  have hc1 : destCheckV1 absDest (sources.map (fun s => s.absPath)) = true := by
    rw [destCheckV1, List.any_eq_true]
    exact ⟨s.absPath, List.mem_map.mpr ⟨s, hs, rfl⟩, hplain⟩
  have hc2 : destCheckV2 absDest sources = true := by
    rw [destCheckV2, List.any_eq_true]
    refine ⟨s, hs, ?_⟩
    rw [sepAppended]
    by_cases hdir : s.isDir = true ∧ endsWithSep s.absPath = false
    · rw [if_pos hdir]
      exact hsep
    · rw [if_neg hdir]
      exact hplain
  refine ⟨?_, ?_, ?_, ?_⟩
  · simp [mainConfigV1, hc1]
  · simp [mainConfigV2, hc2]
  · simp [mainConfigV1, hc1]
  · simp [mainConfigV2, hc2]

theorem dest_inside_source_fatal_witness :
    (∃ s ∈ [({ absPath := chars "/src", isDir := true } : SourceCfg)],
        destInside (chars "/src/out.zip") s.absPath = true)
      ∧ (mainConfigV1 (chars "/src/out.zip")
            ([({ absPath := chars "/src", isDir := true } : SourceCfg)].map (fun s => s.absPath))
            = [CfgEvent.fatalDestInSource]
        ∧ mainConfigV2 (chars "/src/out.zip")
            [({ absPath := chars "/src", isDir := true } : SourceCfg)]
            = [CfgEvent.fatalDestInSource]
        ∧ CfgEvent.createDest ∉ mainConfigV1 (chars "/src/out.zip")
            ([({ absPath := chars "/src", isDir := true } : SourceCfg)].map (fun s => s.absPath))
        ∧ CfgEvent.createDest ∉ mainConfigV2 (chars "/src/out.zip")
            [({ absPath := chars "/src", isDir := true } : SourceCfg)]) :=
  ⟨by decide,
    dest_inside_source_fatal (chars "/src/out.zip")
      [{ absPath := chars "/src", isDir := true }] (by decide)⟩

/-- C10: the pre-write destination check is purely string-prefix based — each
variant aborts exactly when the destination's absolute path extends some
source's absolute path as a plain character prefix (variant 2 appending a
trailing separator for directory sources only).  Consequently the
configuration source `/data`, destination `/database/out.zip` — where the
destination is *not* inside the source — is still fatally rejected by
variant 1, and by variant 2 when `/data` is a file, while variant 2 with
`/data` a directory accepts it. -/
theorem destCheck_characterization :
    (∀ (absDest : List Char) (sources : List (List Char)),
        destCheckV1 absDest sources = true ↔ ∃ s ∈ sources, strHasPre absDest s = true)
      ∧ (∀ (absDest : List Char) (sources : List SourceCfg),
          destCheckV2 absDest sources = true
            ↔ ∃ s ∈ sources, strHasPre absDest (sepAppended s) = true)
      ∧ (destCheckV1 (chars "/database/out.zip") [chars "/data"] = true
        ∧ destInside (chars "/database/out.zip") (chars "/data") = false
        ∧ mainConfigV1 (chars "/database/out.zip") [chars "/data"] = [CfgEvent.fatalDestInSource]
        ∧ destCheckV2 (chars "/database/out.zip")
            [{ absPath := chars "/data", isDir := true }] = false
        ∧ destCheckV2 (chars "/database/out.zip")
            [{ absPath := chars "/data", isDir := false }] = true) := by
  refine ⟨?_, ?_, by decide⟩
  · intro absDest sources
    rw [destCheckV1, List.any_eq_true]
  · intro absDest sources
    rw [destCheckV2, List.any_eq_true]

/-!
Entry naming and header emission in `addFiles`.  Variant 2 names entries
from the absolute path (volume root + remainder) and synthesizes one
directory header per drive; variant 1 names entries relative to the source.
`ToSlash` is the identity in this single-separator model.
-/

/-- `filepath.VolumeName` restricted to the drive-letter form `X:`; empty on
rooted (non-Windows) paths.  UNC volumes are outside the model. -/
def volumeName (p : List Char) : List Char :=
  match p with
  | c :: ':' :: _ => if c.isAlpha then [c, ':'] else []
  | _ => []

/-- `strings.TrimSuffix v ":"`. -/
def trimColon (v : List Char) : List Char :=
  match v.getLast? with
  | some c => if c = ':' then v.dropLast else v
  | none => v

/-- `strings.TrimPrefix s pre`. -/
def trimPre (s pre : List Char) : List Char :=
  if pre.isPrefixOf s then s.drop pre.length else s

/-- `filepath.Join a b` for two elements, assuming clean inputs (on which the
final `Clean` normalisation is the identity); `Join` of all-empty elements is
the empty string. -/
def joinPath (a b : List Char) : List Char :=
  if a = [] then b
  else if b = [] then a
  else a ++ [pathSep] ++ b

/-- The in-archive path variant 2 computes for an absolute walk path (second
program file, lines 550-571): the drive letter joined with the path stripped
of its volume name and leading separator. -/
def zipPathOf (absPath : List Char) : List Char :=
  joinPath (trimColon (volumeName absPath))
    (trimPre (trimPre absPath (volumeName absPath)) [pathSep])

/-- Per-run encoder state of variant 2's `addFiles`: the `createdVolumes`
set, the synthesized volume-root headers, and all headers emitted via
`CreateHeader`, each in order of emission. -/
structure V2State where
  vols : List (List Char)
  volHeaders : List (List Char)
  headers : List (List Char)
deriving DecidableEq

/-- Lines 553-563: on each walk path, synthesize the volume-root directory
header `driveLetter ++ "/"` when the path has a drive letter that is not in
`createdVolumes` yet. -/
def v2VolStep (st : V2State) (absPath : List Char) : V2State :=
  if trimColon (volumeName absPath) ≠ [] ∧ trimColon (volumeName absPath) ∉ st.vols
  then { vols := st.vols ++ [trimColon (volumeName absPath)],
         volHeaders := st.volHeaders ++ [trimColon (volumeName absPath) ++ [pathSep]],
         headers := st.headers ++ [trimColon (volumeName absPath) ++ [pathSep]] }
  else st

/-- One `filepath.Walk` callback of variant 2's `addFiles` (header-emission
part, lines 528-588): volume synthesis first, then the skip guard for an
empty or `"."` zip path (no entry header at all), then the entry header,
directories suffixed with the separator. -/
def v2ProcessPath (st : V2State) (absPath : List Char) (isDir : Bool) : V2State :=
  if zipPathOf absPath = [] ∨ zipPathOf absPath = ['.']
  then v2VolStep st absPath
  else
    { v2VolStep st absPath with
        headers := (v2VolStep st absPath).headers
          ++ [if isDir then zipPathOf absPath ++ [pathSep] else zipPathOf absPath] }

/-- Variant 2's `addFiles` over a walk sequence of (absolute path, is-dir). -/
def v2AddFiles (st : V2State) : List (List Char × Bool) → V2State
  | [] => st
  | (p, d) :: rest => v2AddFiles (v2ProcessPath st p d) rest

/-- The characters after the last separator (`filepath.Base` for clean paths
not ending in a separator). -/
def baseName (p : List Char) : List Char :=
  p.foldl (fun acc c => if c = pathSep then [] else acc ++ [c]) []

/-- `filepath.Dir` for clean paths: everything before the last separator,
`"."` when there is no separator, the bare separator when the remainder is
empty. -/
def dirOf (p : List Char) : List Char :=
  if (baseName p).length = p.length then ['.']
  else if p.take (p.length - (baseName p).length - 1) = [] then [pathSep]
  else p.take (p.length - (baseName p).length - 1)

/-- `filepath.Rel base target` for the cases arising in a walk rooted at
`base` over clean paths: `"."` at the root itself, the remainder after
`base ++ sep` strictly below it.  (Other inputs would need `..` climbs; they
cannot arise in such a walk and are modelled as the target itself.) -/
def relPath (base target : List Char) : List Char :=
  if target = base then ['.']
  else if (base ++ [pathSep]).isPrefixOf target then target.drop (base.length + 1)
  else target

/-- `main.go` lines 398-405: the relative entry name, with the special case
that a file source is placed at the archive root. -/
def v1EntryName (basePath baseDir path : List Char) (isDir : Bool) : List Char :=
  if isDir = false ∧ baseDir = dirOf basePath ∧ basePath = path
  then baseName path
  else relPath baseDir path

/-- One `filepath.Walk` callback of variant 1's `addFiles` (`main.go` lines
380-417, header-emission part).  There is no skip guard: a header is emitted
for every walk path, directories suffixed with the separator. -/
def v1ProcessPath (basePath baseDir : List Char) (headers : List (List Char))
    (path : List Char) (isDir : Bool) : List (List Char) :=
  headers ++ [if isDir then v1EntryName basePath baseDir path isDir ++ [pathSep]
              else v1EntryName basePath baseDir path isDir]

/-- Variant 1's `addFiles`: `baseDir` is the source itself for a directory
source and its parent directory for a file source (`main.go` lines 370-376). -/
def v1AddFiles (basePath : List Char) (srcIsDir : Bool) (walk : List (List Char × Bool)) :
    List (List Char) :=
  walk.foldl
    (fun hs pd =>
      v1ProcessPath basePath (if srcIsDir then basePath else dirOf basePath) hs pd.1 pd.2)
    []

/-- C8 counterexample: in variant 1 the traversal root of the directory
source `/d` has computed relative name `"."` — it resolves to the traversal
root itself — yet a header named `"./"` *is* emitted for it, so the claimed
skip does not hold of variant 1. -/
theorem v1_emits_root_header :
    relPath (chars "/d") (chars "/d") = ['.']
      ∧ v1AddFiles (chars "/d") true [(chars "/d", true), (chars "/d/f", false)]
          = [chars "./", chars "f"] := by
  decide

/-- C8 (amended): in variant 2, a walk path whose computed zip path is empty
or `"."` produces no entry header (only the volume-synthesis part of the
callback runs); variant 1 has no such skip — its callback emits exactly one
header for every walk path. -/
theorem skip_policy_per_variant (st : V2State) (p : List Char) (d : Bool)
    (hskip : zipPathOf p = [] ∨ zipPathOf p = ['.']) :
    v2ProcessPath st p d = v2VolStep st p
      ∧ ∀ (basePath baseDir path : List Char) (pHs : List (List Char)) (isDir : Bool),
          (v1ProcessPath basePath baseDir pHs path isDir).length = pHs.length + 1 := by
  constructor
  · rw [v2ProcessPath, if_pos hskip]
  · intro basePath baseDir path pHs isDir
    simp [v1ProcessPath]

theorem skip_policy_per_variant_witness :
    (zipPathOf (chars "/") = [] ∨ zipPathOf (chars "/") = ['.'])
      ∧ (v2ProcessPath { vols := [], volHeaders := [], headers := [] } (chars "/") true
            = v2VolStep { vols := [], volHeaders := [], headers := [] } (chars "/")
        ∧ ∀ (basePath baseDir path : List Char) (pHs : List (List Char)) (isDir : Bool),
            (v1ProcessPath basePath baseDir pHs path isDir).length = pHs.length + 1) :=
  ⟨by decide,
    skip_policy_per_variant { vols := [], volHeaders := [], headers := [] } (chars "/") true
      (by decide)⟩

/-- The non-empty drive letters of a walk sequence, in order of appearance
(with repetitions). -/
def nonEmptyDrives : List (List Char × Bool) → List (List Char)
  | [] => []
  | (p, _) :: rest =>
    if trimColon (volumeName p) = [] then nonEmptyDrives rest
    else trimColon (volumeName p) :: nonEmptyDrives rest

/-- First occurrences of a list's elements, in order, relative to an initial
set `seen` of already-emitted elements. -/
def distinctFirsts (seen : List (List Char)) : List (List Char) → List (List Char)
  | [] => []
  | x :: xs => if x ∈ seen then distinctFirsts seen xs else x :: distinctFirsts (seen ++ [x]) xs

theorem v2ProcessPath_vols (st : V2State) (p : List Char) (d : Bool) :
    (v2ProcessPath st p d).vols = (v2VolStep st p).vols
      ∧ (v2ProcessPath st p d).volHeaders = (v2VolStep st p).volHeaders := by
  rw [v2ProcessPath]
  by_cases h : zipPathOf p = [] ∨ zipPathOf p = ['.']
  · rw [if_pos h]
    exact ⟨rfl, rfl⟩
  · rw [if_neg h]
    exact ⟨rfl, rfl⟩

theorem v2AddFiles_vols :
    ∀ (walk : List (List Char × Bool)) (st : V2State),
      (v2AddFiles st walk).vols = st.vols ++ distinctFirsts st.vols (nonEmptyDrives walk)
        ∧ (v2AddFiles st walk).volHeaders
            = st.volHeaders
              ++ (distinctFirsts st.vols (nonEmptyDrives walk)).map (fun x => x ++ [pathSep]) := by
  intro walk
  induction walk with
  | nil => intro st; simp [v2AddFiles, nonEmptyDrives, distinctFirsts]
  | cons pd rest ih =>
    intro st
    obtain ⟨p, d⟩ := pd
    obtain ⟨hv1, hv2⟩ := v2ProcessPath_vols st p d
    have hstep : v2AddFiles st ((p, d) :: rest) = v2AddFiles (v2ProcessPath st p d) rest := rfl
    obtain ⟨ih1, ih2⟩ := ih (v2ProcessPath st p d)
    rw [hstep, ih1, ih2, hv1, hv2]
    by_cases hdr : trimColon (volumeName p) = []
    · have hvol : v2VolStep st p = st := by
        rw [v2VolStep, if_neg]
        intro hcontra
        exact hcontra.1 hdr
      have hnd : nonEmptyDrives ((p, d) :: rest) = nonEmptyDrives rest := by
        rw [nonEmptyDrives, if_pos hdr]
      rw [hvol, hnd]
      exact ⟨rfl, rfl⟩
    · have hnd : nonEmptyDrives ((p, d) :: rest)
          = trimColon (volumeName p) :: nonEmptyDrives rest := by
        rw [nonEmptyDrives, if_neg hdr]
      rw [hnd]
      by_cases hmem : trimColon (volumeName p) ∈ st.vols
      · have hvol : v2VolStep st p = st := by
          rw [v2VolStep, if_neg]
          intro hcontra
          exact hcontra.2 hmem
        have hdf : distinctFirsts st.vols (trimColon (volumeName p) :: nonEmptyDrives rest)
            = distinctFirsts st.vols (nonEmptyDrives rest) := by
          rw [distinctFirsts, if_pos hmem]
        rw [hvol, hdf]
        exact ⟨rfl, rfl⟩
      · have hvol : v2VolStep st p
            = { vols := st.vols ++ [trimColon (volumeName p)],
                volHeaders := st.volHeaders ++ [trimColon (volumeName p) ++ [pathSep]],
                headers := st.headers ++ [trimColon (volumeName p) ++ [pathSep]] } := by
          rw [v2VolStep, if_pos ⟨hdr, hmem⟩]
        have hdf : distinctFirsts st.vols (trimColon (volumeName p) :: nonEmptyDrives rest)
            = trimColon (volumeName p)
              :: distinctFirsts (st.vols ++ [trimColon (volumeName p)]) (nonEmptyDrives rest) := by
          rw [distinctFirsts, if_neg hmem]
        rw [hvol, hdf]
        constructor
        · simp [List.append_assoc]
        · simp [List.append_assoc]

theorem distinctFirsts_nodup :
    ∀ (l seen : List (List Char)),
      (∀ x ∈ distinctFirsts seen l, x ∉ seen) ∧ (distinctFirsts seen l).Nodup := by
  intro l
  induction l with
  | nil => intro seen; exact ⟨by simp [distinctFirsts], by simp [distinctFirsts]⟩
  | cons x xs ih =>
    intro seen
    by_cases hx : x ∈ seen
    · rw [show distinctFirsts seen (x :: xs) = distinctFirsts seen xs from by
        rw [distinctFirsts, if_pos hx]]
      exact ih seen
    · rw [show distinctFirsts seen (x :: xs) = x :: distinctFirsts (seen ++ [x]) xs from by
        rw [distinctFirsts, if_neg hx]]
      obtain ⟨ih1, ih2⟩ := ih (seen ++ [x])
      constructor
      · intro y hy
        rcases List.mem_cons.mp hy with h | h
        · rw [h]; exact hx
        · exact fun hc => ih1 y h (List.mem_append_left _ hc)
      · refine List.nodup_cons.mpr ⟨?_, ih2⟩
        intro hc
        exact ih1 x hc (List.mem_append_right _ (List.mem_singleton.mpr rfl))

theorem v1Fold_length (basePath baseDir : List Char) :
    ∀ (w : List (List Char × Bool)) (hs : List (List Char)),
      (w.foldl (fun hs pd => v1ProcessPath basePath baseDir hs pd.1 pd.2) hs).length
        = hs.length + w.length := by
  intro w
  induction w with
  | nil => intro hs; simp
  | cons pd rest ih =>
    intro hs
    simp only [List.foldl_cons]
    rw [ih]
    simp only [v1ProcessPath, List.length_append, List.length_cons, List.length_nil]
    omega

/-- C9 counterexample: a variant 1 run over two directory sources rooted on
two distinct drives (`C:` and `D:`) emits no `C/` and no `D/` directory
header at all — names are relative to each source — contradicting the claim
that exactly one directory-only header per distinct root is emitted. -/
theorem v1_no_volume_headers :
    (v1AddFiles (chars "C:/x") true [(chars "C:/x", true), (chars "C:/x/a.txt", false)]
          ++ v1AddFiles (chars "D:/y") true [(chars "D:/y", true), (chars "D:/y/b.txt", false)]
        = [chars "./", chars "a.txt", chars "./", chars "b.txt"])
      ∧ chars "C/"
          ∉ v1AddFiles (chars "C:/x") true [(chars "C:/x", true), (chars "C:/x/a.txt", false)]
            ++ v1AddFiles (chars "D:/y") true [(chars "D:/y", true), (chars "D:/y/b.txt", false)]
      ∧ chars "D/"
          ∉ v1AddFiles (chars "C:/x") true [(chars "C:/x", true), (chars "C:/x/a.txt", false)]
            ++ v1AddFiles (chars "D:/y") true [(chars "D:/y", true), (chars "D:/y/b.txt", false)] := by
  decide

/-- C9 (amended): in variant 2, the synthesized volume-root headers of a run
are exactly one directory-only header `letter ++ "/"` per distinct non-empty
drive letter, in order of first encounter, with no duplicates; variant 1
synthesizes no root headers at all (each walk path contributes exactly its
own entry header and nothing else). -/
theorem v2_volume_header_unique (walk : List (List Char × Bool)) :
    (v2AddFiles { vols := [], volHeaders := [], headers := [] } walk).vols
        = distinctFirsts [] (nonEmptyDrives walk)
      ∧ (v2AddFiles { vols := [], volHeaders := [], headers := [] } walk).volHeaders
          = (distinctFirsts [] (nonEmptyDrives walk)).map (fun x => x ++ [pathSep])
      ∧ (v2AddFiles { vols := [], volHeaders := [], headers := [] } walk).volHeaders.Nodup
      ∧ ∀ (basePath : List Char) (srcIsDir : Bool) (w : List (List Char × Bool)),
          (v1AddFiles basePath srcIsDir w).length = w.length := by
  obtain ⟨h1, h2⟩ := v2AddFiles_vols walk { vols := [], volHeaders := [], headers := [] }
  refine ⟨by simpa using h1, by simpa using h2, ?_, ?_⟩
  · have hnd : (distinctFirsts [] (nonEmptyDrives walk)).Nodup :=
      (distinctFirsts_nodup (nonEmptyDrives walk) []).2
    have : (v2AddFiles { vols := [], volHeaders := [], headers := [] } walk).volHeaders
        = (distinctFirsts [] (nonEmptyDrives walk)).map (fun x => x ++ [pathSep]) := by
      simpa using h2
    rw [this]
    exact hnd.map (List.append_left_injective [pathSep])
  · intro basePath srcIsDir w
    rw [v1AddFiles, v1Fold_length]
    simp

/-!
Per-entry I/O error policy of `addFiles`.  An entry's payload is modelled as
the sequence of copy-loop events it produces; read results and per-chunk
write outcomes are environment oracles.
-/

/-- One event of the per-entry copy loop: a successful read of a non-empty
chunk together with whether writing it to the zip entry writer succeeds, a
non-EOF read error, or end-of-file. -/
inductive CopyEvent
  | chunk (data : List Nat) (writeOk : Bool)
  | readError
  | readEOF
deriving DecidableEq

/-- One walk entry: its archive name, whether it is a directory, and the
copy events its payload produces. -/
structure FileEntry where
  name : List Char
  isDir : Bool
  events : List CopyEvent
deriving DecidableEq

/-- Variant 1's copy loop (`main.go` lines 426-444): the bytes written to
the entry writer and whether the loop finished cleanly; a write error or a
non-EOF read error is returned to the walk callback immediately. -/
def copyLoopV1 : List CopyEvent → List Nat × Bool
  | [] => ([], true)
  | CopyEvent.chunk d true :: rest => (d ++ (copyLoopV1 rest).1, (copyLoopV1 rest).2)
  | CopyEvent.chunk _ false :: _ => ([], false)
  | CopyEvent.readError :: _ => ([], false)
  | CopyEvent.readEOF :: _ => ([], true)

/-- A file entry whose copy returns an error in variant 1. -/
def entryFails (e : FileEntry) : Bool := ! e.isDir && ! (copyLoopV1 e.events).2

/-- Variant 1's `addFiles` over the walk entries: the names whose header was
created (in order), the payload bytes streamed to the encoder, and whether
the walk completed without error.  The callback creates the header before
copying, and its error propagates out of `filepath.Walk`, aborting the walk:
entries after the first failing one are never visited. -/
def addFilesV1 : List FileEntry → List (List Char) × List Nat × Bool
  | [] => ([], [], true)
  | e :: rest =>
    if entryFails e
    then ([e.name], (copyLoopV1 e.events).1, false)
    else (e.name :: (addFilesV1 rest).1,
          (if e.isDir then [] else (copyLoopV1 e.events).1) ++ (addFilesV1 rest).2.1,
          (addFilesV1 rest).2.2)

/-- Variant 1's `main` loop over the sources (`main.go` lines 346-353): on
an `addFiles` error `log.Fatalf` aborts the run, so no later source is
processed. -/
def mainLoopV1 : List (List FileEntry) → List (List Char) × Bool
  | [] => ([], true)
  | s :: rest =>
    if (addFilesV1 s).2.2
    then ((addFilesV1 s).1 ++ (mainLoopV1 rest).1, (mainLoopV1 rest).2)
    else ((addFilesV1 s).1, false)

/-- Variant 2's copy loop (second program file, lines 598-617): a read or
write error is logged and the callback returns nil, so only this entry's
remaining payload is dropped. -/
def copyLoopV2 : List CopyEvent → List Nat
  | [] => []
  | CopyEvent.chunk d true :: rest => d ++ copyLoopV2 rest
  | CopyEvent.chunk _ false :: _ => []
  | CopyEvent.readError :: _ => []
  | CopyEvent.readEOF :: _ => []

/-- Variant 2's `addFiles`: every per-entry error is logged and swallowed
(`return nil`), so the walk visits every entry and no error is ever
surfaced to the caller. -/
def addFilesV2 : List FileEntry → List (List Char) × List Nat × Bool
  | [] => ([], [], true)
  | e :: rest =>
    (e.name :: (addFilesV2 rest).1,
     (if e.isDir then [] else copyLoopV2 e.events) ++ (addFilesV2 rest).2.1,
     (addFilesV2 rest).2.2)

theorem addFilesV1_abort :
    ∀ (pre : List FileEntry) (e : FileEntry) (post : List FileEntry),
      entryFails e = true → (∀ x ∈ pre, entryFails x = false) →
      addFilesV1 (pre ++ e :: post) = addFilesV1 (pre ++ [e])
        ∧ (addFilesV1 (pre ++ e :: post)).1 = (pre ++ [e]).map (fun x => x.name)
        ∧ (addFilesV1 (pre ++ e :: post)).2.2 = false := by
  intro pre
  induction pre with
  | nil =>
    intro e post hfail _
    refine ⟨?_, ?_, ?_⟩ <;> simp [addFilesV1, hfail]
  | cons x pre ih =>
    intro e post hfail hpre
    have hx : entryFails x = false := hpre x (List.mem_cons_self _ _)
    obtain ⟨i1, i2, i3⟩ := ih e post hfail (fun y hy => hpre y (List.mem_cons_of_mem _ hy))
    refine ⟨?_, ?_, ?_⟩
    · simp only [List.cons_append, addFilesV1, hx, Bool.false_eq_true, if_false, List.append_eq]
      rw [i1]
    · simp only [List.cons_append, addFilesV1, hx, Bool.false_eq_true, if_false, List.map_cons,
        List.append_eq]
      rw [i2]
    · simp only [List.cons_append, addFilesV1, hx, Bool.false_eq_true, if_false, List.append_eq]
      exact i3

theorem addFilesV2_all :
    ∀ (l : List FileEntry),
      (addFilesV2 l).1 = l.map (fun x => x.name) ∧ (addFilesV2 l).2.2 = true := by
  intro l
  induction l with
  | nil => exact ⟨rfl, rfl⟩
  | cons e rest ih =>
    refine ⟨?_, ?_⟩
    · simp only [addFilesV2, List.map_cons]
      rw [ih.1]
    · simp only [addFilesV2]
      exact ih.2

/-- The two concrete walk entries used to exhibit the error-policy
divergence: `entA` fails with a read error, `entB` is a healthy file. -/
def entA : FileEntry :=
  { name := chars "a.txt", isDir := false, events := [CopyEvent.readError] }

def entB : FileEntry :=
  { name := chars "b.txt", isDir := false,
    events := [CopyEvent.chunk [1, 2] true, CopyEvent.readEOF] }

/-- C3 counterexample: in variant 2 a read error on the first entry is
logged and swallowed — the walk continues, the second entry is fully
processed (its header and payload bytes are emitted), and no error is
surfaced to the caller — so the claimed run-wide fail-fast policy does not
hold of every run of this repository. -/
theorem errorPolicy_v2_continues_after_error :
    addFilesV2 [entA, entB] = ([chars "a.txt", chars "b.txt"], [1, 2], true) := by
  decide

/-- C3 (amended): the two variants genuinely differ.  In variant 1
(`main.go`) a read or write error on one entry is surfaced and aborts the
whole run: the result equals that of the walk truncated at the failing
entry, the failure is reported, and `main`'s source loop stops there.  In
variant 2 every entry is visited and no error is ever surfaced. -/
theorem errorPolicy_per_variant (pre post : List FileEntry) (e : FileEntry)
    (hfail : entryFails e = true) (hpre : ∀ x ∈ pre, entryFails x = false) :
    addFilesV1 (pre ++ e :: post) = addFilesV1 (pre ++ [e])
      ∧ (addFilesV1 (pre ++ e :: post)).1 = (pre ++ [e]).map (fun x => x.name)
      ∧ (addFilesV1 (pre ++ e :: post)).2.2 = false
      ∧ (∀ more, mainLoopV1 ((pre ++ e :: post) :: more)
          = ((addFilesV1 (pre ++ [e])).1, false))
      ∧ (∀ l, (addFilesV2 l).1 = l.map (fun x => x.name) ∧ (addFilesV2 l).2.2 = true) := by
  obtain ⟨h1, h2, h3⟩ := addFilesV1_abort pre e post hfail hpre
  refine ⟨h1, h2, h3, ?_, addFilesV2_all⟩
  intro more
  rw [mainLoopV1, if_neg (by rw [h3]; exact Bool.false_ne_true), h1]

theorem errorPolicy_per_variant_witness :
    (entryFails entA = true ∧ (∀ x ∈ ([] : List FileEntry), entryFails x = false))
      ∧ (addFilesV1 ([] ++ entA :: [entB]) = addFilesV1 ([] ++ [entA])
        ∧ (addFilesV1 ([] ++ entA :: [entB])).1
            = (([] : List FileEntry) ++ [entA]).map (fun x => x.name)
        ∧ (addFilesV1 ([] ++ entA :: [entB])).2.2 = false
        ∧ (∀ more, mainLoopV1 (([] ++ entA :: [entB]) :: more)
            = ((addFilesV1 ([] ++ [entA])).1, false))
        ∧ (∀ l, (addFilesV2 l).1 = l.map (fun x => x.name) ∧ (addFilesV2 l).2.2 = true)) :=
  ⟨⟨by decide, by simp⟩,
    errorPolicy_per_variant [] [entB] entA (by decide) (by simp)⟩

end LtfsZip
